import Mathlib

/-!
Verification development for the MarketDashboard backend
(`src/server/app/main.py`).  The file embeds the normalization,
time-range and timeframe-resolution logic of the service as executable
Lean definitions and proves the specified properties about them.

Python values that can appear in the normalized JSON payloads are
modelled by the inductive type `PyVal`; Python `dict`s are modelled as
insertion-ordered association lists (Python dictionaries preserve
insertion order and have unique keys).
-/

/-- Model of a JSON-like Python value (int, str, None, list, dict).
Dictionaries are insertion-ordered association lists. -/
inductive PyVal where
  | int : Int → PyVal
  | str : String → PyVal
  | none : PyVal
  | list : List PyVal → PyVal
  | dict : List (String × PyVal) → PyVal

/-- Lookup of a key in an association list (Python `d.get(k)` /
`d[k]`): first matching entry wins. -/
def alookup {α : Type} : List (String × α) → String → Option α
  | [], _ => Option.none
  | (k, v) :: rest, key => if k = key then some v else alookup rest key

/-- In-place update of an existing key in an association list
(Python `d[k] = v` for a key already present): the first matching entry
is replaced, order is preserved.  (The source only ever assigns keys it
has just checked to be present, so the append-if-missing case of Python
assignment is never exercised.) -/
def aupdate {α : Type} : List (String × α) → String → α → List (String × α)
  | [], _, _ => []
  | (k, v) :: rest, key, nv =>
      if k = key then (k, nv) :: rest else (k, v) :: aupdate rest key nv

/-- Python list slicing `l[:n]` with an `int` bound: a non-negative
bound keeps the first `n` elements; a negative bound drops the last
`|n|` elements (empty result when `|n| ≥ len(l)`). -/
def pySlice {α : Type} (l : List α) (n : Int) : List α :=
  if n < 0 then l.take (l.length - n.natAbs) else l.take n.toNat

/-- The inner loop of `_limit_mover_payload` (main.py lines 86-91):
`for key in ("items", "data", "list"): if isinstance(nested.get(key), list):
nested[key] = nested[key][:limit]; trimmed[side] = nested; break`.
Returns the updated copy of the nested mapping when some key matched,
`none` when the loop fell through without a match. -/
def trimNested (nes : List (String × PyVal)) (limit : Int) :
    List String → Option (List (String × PyVal))
  | [] => Option.none
  | key :: rest =>
      match alookup nes key with
      | some (.list ys) => some (aupdate nes key (.list (pySlice ys limit)))
      | _ => trimNested nes limit rest

/-- One iteration of the outer loop of `_limit_mover_payload`
(main.py lines 79-92) for a single `side` key: skip absent keys,
truncate list values, descend into mapping values via `trimNested`,
leave every other shape untouched. -/
def trimSide (es : List (String × PyVal)) (side : String) (limit : Int) :
    List (String × PyVal) :=
  match alookup es side with
  | Option.none => es
  | some (.list xs) => aupdate es side (.list (pySlice xs limit))
  | some (.dict nes) =>
      match trimNested nes limit ["items", "data", "list"] with
      | some nes2 => aupdate es side (.dict nes2)
      | Option.none => es
  | some _ => es

/-- The function `_limit_mover_payload` (main.py lines 75-93), value-level rendering:
non-dict payloads pass through; for a dict a shallow copy is made and
the `gainers` then `losers` sides are trimmed in that order. -/
def _limit_mover_payload (payload : PyVal) (limit : Int) : PyVal :=
  match payload with
  | .dict es => .dict (trimSide (trimSide es "gainers" limit) "losers" limit)
  | p => p

/-- Lookup on a `PyVal` that is a dict; `none` on any other shape. -/
def dictLookup (v : PyVal) (k : String) : Option PyVal :=
  match v with
  | .dict es => alookup es k
  | _ => Option.none

/-- The first key among a given key list whose value in the mapping is
a Python list, together with that list (the claim's "first of the keys
items/data/list, in that order, whose value is a list"). -/
def firstListIn : List String → List (String × PyVal) → Option (String × List PyVal)
  | [], _ => Option.none
  | k :: rest, nes =>
      match alookup nes k with
      | some (.list ys) => some (k, ys)
      | _ => firstListIn rest nes

/-- How mover trimming transforms the value stored under one of the
`gainers`/`losers` keys, for an arbitrary Python `int` limit: a list
is sliced; a mapping has the first of `items`/`data`/`list` holding a
list sliced (later keys untouched); anything else is unchanged. -/
def trimValueAt (v : PyVal) (limit : Int) : PyVal :=
  match v with
  | .list xs => .list (pySlice xs limit)
  | .dict nes =>
      match firstListIn ["items", "data", "list"] nes with
      | some (k, ys) => .dict (aupdate nes k (.list (pySlice ys limit)))
      | Option.none => .dict nes
  | v => v

/-- Specification-side description of mover trimming of a single side
value at a (non-negative) limit `n`: a list is truncated to its first
`n` elements; a mapping has the first of `items`/`data`/`list` holding
a list truncated to `n` elements, later keys untouched; anything else
is unchanged. -/
def trimValueSpec (v : PyVal) (n : Nat) : PyVal :=
  match v with
  | .list xs => .list (xs.take n)
  | .dict nes =>
      match firstListIn ["items", "data", "list"] nes with
      | some (k, ys) => .dict (aupdate nes k (.list (ys.take n)))
      | Option.none => .dict nes
  | v => v

/-- The replacement value (if any) that one outer-loop iteration of
`_limit_mover_payload` stores under `side`: `none` when the key is
absent or its value has an untrimmable shape, `some v` when the side is
reassigned to `v`.  (Proof-side decomposition of `trimSide`.) -/
def sideNewValue (es : List (String × PyVal)) (side : String) (limit : Int) :
    Option PyVal :=
  match alookup es side with
  | some (.list xs) => some (.list (pySlice xs limit))
  | some (.dict nes) =>
      (trimNested nes limit ["items", "data", "list"]).map PyVal.dict
  | _ => Option.none

/-! ### The serializer and the crypto-movers handler -/

/-- Model of an opaque vendor SDK response object as seen by
`_serialize_response`: the two dynamically-probed capabilities
(`model_dump`, `dict`) are present or absent, and each, when present,
yields a `PyVal`; `raw` is the object's value when passed through
unchanged. -/
structure VendorResponse where
  model_dump : Option PyVal
  dict : Option PyVal
  raw : PyVal

/-- The function `_serialize_response` (main.py lines 67-72): prefer `model_dump`,
then `dict`, else pass the object through. -/
def _serialize_response (payload : VendorResponse) : PyVal :=
  match payload.model_dump with
  | some d => d
  | Option.none =>
      match payload.dict with
      | some d => d
      | Option.none => payload.raw

/-- Market type of a movers request (alpaca `MarketType`). -/
inductive MarketType where
  | STOCKS : MarketType
  | CRYPTO : MarketType

/-- The fields of an alpaca `MarketMoversRequest` used by this service. -/
structure MarketMoversRequest where
  top : Nat
  market_type : MarketType

/-- The handler `get_crypto_stock_market_movers` (main.py lines 138-143), with the
vendor screener client abstracted as a function from the request to a
response object: build a top-20 crypto movers request, serialize the
response, trim to 6 per side, and wrap in the response envelope. -/
def get_crypto_stock_market_movers
    (get_market_movers : MarketMoversRequest → VendorResponse) : PyVal :=
  let req : MarketMoversRequest := { top := 20, market_type := MarketType.CRYPTO }
  let movers := get_market_movers req
  let trimmed := _limit_mover_payload (_serialize_response movers) 6
  .dict [("crypto_market_movers", trimmed)]

/-! ### Timeframe resolution -/

/-- Units of the alpaca `TimeFrameUnit` enum. -/
inductive TimeFrameUnit where
  | Minute : TimeFrameUnit
  | Hour : TimeFrameUnit
  | Day : TimeFrameUnit
  | Week : TimeFrameUnit
  | Month : TimeFrameUnit
deriving DecidableEq

/-- An alpaca `TimeFrame`: an amount of some unit. -/
structure TimeFrame where
  amount : Nat
  unit : TimeFrameUnit
deriving DecidableEq

/-- The vendor constant `TimeFrame.Minute` (1 minute). -/
def TimeFrame.Minute : TimeFrame := ⟨1, TimeFrameUnit.Minute⟩

/-- The vendor constant `TimeFrame.Hour` (1 hour). -/
def TimeFrame.Hour : TimeFrame := ⟨1, TimeFrameUnit.Hour⟩

/-- The vendor constant `TimeFrame.Day` (1 day). -/
def TimeFrame.Day : TimeFrame := ⟨1, TimeFrameUnit.Day⟩

/-- The set of characters Python's `str.strip()` (with no argument)
removes: the characters for which `str.isspace()` holds.  These are
the ASCII whitespace characters (space, tab, newline, carriage return,
vertical tab, form feed), the field/group/record/unit separators
U+001C-U+001F, the next-line character U+0085, the no-break space
U+00A0, the Ogham space mark U+1680, the typographic spaces
U+2000-U+200A, the line and paragraph separators U+2028/U+2029, the
narrow no-break space U+202F, the medium mathematical space U+205F and
the ideographic space U+3000. -/
def pyIsSpace (c : Char) : Bool :=
  c = ' ' || c = '\t' || c = '\n' || c = '\r' || c = '\x0b' || c = '\x0c' ||
  c = '\x1c' || c = '\x1d' || c = '\x1e' || c = '\x1f' ||
  c = '\u0085' || c = '\u00A0' || c = '\u1680' ||
  ('\u2000' ≤ c && c ≤ '\u200A') ||
  c = '\u2028' || c = '\u2029' || c = '\u202F' || c = '\u205F' || c = '\u3000'

/-- Strip leading and trailing whitespace from a character list. -/
def stripChars (l : List Char) : List Char :=
  ((l.dropWhile pyIsSpace).reverse.dropWhile pyIsSpace).reverse

/-- Python `str.strip()` on a string: removes the characters of
`pyIsSpace` from both ends. -/
def pyStrip (s : String) : String := ⟨stripChars s.data⟩

/-- The function `_resolve_timeframe` (main.py lines 107-121): absent or empty
(falsy) input defaults to 1 minute; otherwise the input is stripped of
surrounding whitespace and matched against the five recognized tokens,
any other value falling back to 1 minute. -/
def _resolve_timeframe (value : Option String) : TimeFrame :=
  match value with
  | Option.none => TimeFrame.Minute
  | some v =>
      if v = "" then TimeFrame.Minute
      else
        let normalized := pyStrip v
        if normalized = "1Min" then TimeFrame.Minute
        else if normalized = "5Min" then ⟨5, TimeFrameUnit.Minute⟩
        else if normalized = "15Min" then ⟨15, TimeFrameUnit.Minute⟩
        else if normalized = "1Hour" then TimeFrame.Hour
        else if normalized = "1Day" then TimeFrame.Day
        else TimeFrame.Minute

/-! ### Datetimes and ISO-8601 parsing -/

/-- A Python `datetime` value: calendar fields, clock fields,
microseconds, and an optional UTC offset in minutes (`None` for a
naive datetime). -/
structure PyDateTime where
  year : Nat
  month : Nat
  day : Nat
  hour : Nat
  minute : Nat
  second : Nat
  microsecond : Nat
  utcoffset : Option Int
deriving DecidableEq

/-- Gregorian leap-year test. -/
def isLeap (y : Nat) : Bool :=
  y % 4 == 0 && (y % 100 != 0 || y % 400 == 0)

/-- Number of days in a month of the proleptic Gregorian calendar. -/
def daysInMonth (y m : Nat) : Nat :=
  if m = 2 then (if isLeap y then 29 else 28)
  else if m = 4 ∨ m = 6 ∨ m = 9 ∨ m = 11 then 30
  else 31

/-- Numeric value of a decimal digit character, `none` otherwise. -/
def digitVal (c : Char) : Option Nat :=
  if c.isDigit then some (c.toNat - 48) else Option.none

/-- Parse exactly two decimal digits from the front of a character
list, returning the value and the remaining characters. -/
def parse2 : List Char → Option (Nat × List Char)
  | c1 :: c2 :: rest =>
      match digitVal c1, digitVal c2 with
      | some a, some b => some (10 * a + b, rest)
      | _, _ => Option.none
  | _ => Option.none

/-- Parse exactly four decimal digits from the front of a character
list. -/
def parse4 (l : List Char) : Option (Nat × List Char) :=
  match parse2 l with
  | some (hi, r) =>
      match parse2 r with
      | some (lo, r2) => some (100 * hi + lo, r2)
      | Option.none => Option.none
  | Option.none => Option.none

/-- Parse a fractional-seconds field: one or more digits, of which the
first six (zero-padded on the right to six) give the microsecond value;
further digits are truncated, as Python does. -/
def parseFrac (l : List Char) : Option (Nat × List Char) :=
  let ds := l.takeWhile Char.isDigit
  if ds = [] then Option.none
  else
    let d6 := ds.take 6
    let v := d6.foldl (fun a c => 10 * a + (c.toNat - 48)) 0
    some (v * 10 ^ (6 - d6.length), l.dropWhile Char.isDigit)

/-- Parse the remainder of a string as an optional UTC-offset
designator: empty input means a naive datetime; otherwise a sign
followed by `HH:MM` (hours at most 23, minutes at most 59) consuming
the whole remainder, giving the offset in minutes. -/
def parseOffset : List Char → Option (Option Int)
  | [] => some Option.none
  | c :: r =>
      if c = '+' ∨ c = '-' then
        match parse2 r with
        | some (hh, r1) =>
            match r1 with
            | ':' :: r2 =>
                match parse2 r2 with
                | some (mm, r3) =>
                    if r3 = [] ∧ hh ≤ 23 ∧ mm ≤ 59 then
                      some (some (if c = '+' then (hh * 60 + mm : Int)
                                  else -(hh * 60 + mm : Int)))
                    else Option.none
                | Option.none => Option.none
            | _ => Option.none
        | Option.none => Option.none
      else Option.none

/-- Parse an ISO time-of-day of the form `HH[:MM[:SS[.ffffff]]]`
(a comma is also accepted as the decimal separator), returning hour,
minute, second, microsecond and the unconsumed remainder. -/
def parseTime (l : List Char) : Option (Nat × Nat × Nat × Nat × List Char) :=
  match parse2 l with
  | some (hh, r1) =>
      match r1 with
      | ':' :: r2 =>
          match parse2 r2 with
          | some (mm, r3) =>
              match r3 with
              | ':' :: r4 =>
                  match parse2 r4 with
                  | some (ss, r5) =>
                      match r5 with
                      | '.' :: r6 =>
                          (parseFrac r6).map (fun p => (hh, mm, ss, p.1, p.2))
                      | ',' :: r6 =>
                          (parseFrac r6).map (fun p => (hh, mm, ss, p.1, p.2))
                      | _ => some (hh, mm, ss, 0, r5)
                  | Option.none => Option.none
              | _ => some (hh, mm, 0, 0, r3)
          | Option.none => Option.none
      | _ => some (hh, 0, 0, 0, r1)
  | Option.none => Option.none

/-- Range-check the parsed fields and build the datetime (Python
validates year, month, calendar day and clock fields and otherwise
raises `ValueError`, which the model renders as `none`). -/
def mkValid (y mo d hh mm ss us : Nat) (tz : Option Int) : Option PyDateTime :=
  if 1 ≤ y ∧ 1 ≤ mo ∧ mo ≤ 12 ∧ 1 ≤ d ∧ d ≤ daysInMonth y mo ∧
      hh ≤ 23 ∧ mm ≤ 59 ∧ ss ≤ 59 then
    some ⟨y, mo, d, hh, mm, ss, us, tz⟩
  else Option.none

/-- Modelled from the spec: Python's `datetime.fromisoformat`, the
stdlib collaborator called by `_parse_iso` and absent from `src/`.
Per its documented contract (Python ≥ 3.11) it accepts
`YYYY-MM-DD[*HH[:MM[:SS[.ffffff]]][±HH:MM]]` where `*` is any single
separator character, validates all calendar and clock fields, and
raises `ValueError` (here: `none`) otherwise. -/
def fromisoformat (s : String) : Option PyDateTime :=
  match parse4 s.data with
  | some (y, r1) =>
      match r1 with
      | '-' :: r2 =>
          match parse2 r2 with
          | some (mo, r3) =>
              match r3 with
              | '-' :: r4 =>
                  match parse2 r4 with
                  | some (d, r5) =>
                      match r5 with
                      | [] => mkValid y mo d 0 0 0 0 Option.none
                      | _sep :: r6 =>
                          match parseTime r6 with
                          | some (hh, mm, ss, us, r7) =>
                              match parseOffset r7 with
                              | some tz => mkValid y mo d hh mm ss us tz
                              | Option.none => Option.none
                          | Option.none => Option.none
                  | Option.none => Option.none
              | _ => Option.none
          | Option.none => Option.none
      | _ => Option.none
  | Option.none => Option.none

/-- Python `value.endswith("Z")`. -/
def endsWithZ (s : String) : Bool :=
  match s.data.getLast? with
  | some 'Z' => true
  | _ => false

/-- Python `value.replace("Z", "+00:00")`: every occurrence of the
one-character pattern `Z` is replaced by `+00:00`. -/
def replaceZchars : List Char → List Char
  | [] => []
  | c :: rest =>
      if c = 'Z' then '+' :: '0' :: '0' :: ':' :: '0' :: '0' :: replaceZchars rest
      else c :: replaceZchars rest

/-- The string actually handed to `fromisoformat` by `_parse_iso`:
when the value ends with `Z`, all `Z`s are replaced by `+00:00`. -/
def zNormalize (v : String) : String :=
  if endsWithZ v then ⟨replaceZchars v.data⟩ else v

/-- The function `_parse_iso` (main.py lines 96-104): falsy input (absent or empty)
is `None`; otherwise a trailing `Z` is rewritten to a `+00:00` offset
and the string is parsed, a `ValueError` being swallowed into `None`. -/
def _parse_iso (value : Option String) : Option PyDateTime :=
  match value with
  | Option.none => Option.none
  | some v =>
      if v = "" then Option.none
      else fromisoformat (zNormalize v)

/-- The previous calendar day of the proleptic Gregorian calendar. -/
def prevDay (y m d : Nat) : Nat × Nat × Nat :=
  if 1 < d then (y, m, d - 1)
  else if 1 < m then (y, m - 1, daysInMonth y (m - 1))
  else (y - 1, 12, 31)

/-- Python `end_dt - timedelta(hours=2)` on a (possibly aware)
datetime: wall-clock arithmetic on the stored fields, borrowing one
calendar day when the hour is below 2, keeping the tzinfo.  (Defined
for years ≥ 1, the domain of Python datetimes.) -/
def subTwoHours (dt : PyDateTime) : PyDateTime :=
  if 2 ≤ dt.hour then { dt with hour := dt.hour - 2 }
  else
    let p := prevDay dt.year dt.month dt.day
    { dt with year := p.1, month := p.2.1, day := p.2.2, hour := dt.hour + 22 }

/-- The time-range resolution of `get_stock_bars` (main.py lines
154-159), with the call to `datetime.now(timezone.utc)` abstracted as
the parameter `now`: parse both query strings, default the end to
`now`, default the start to the end minus two hours, and return
`(start_dt, end_dt)`. -/
def get_stock_bars_range (start? end? : Option String) (now : PyDateTime) :
    PyDateTime × PyDateTime :=
  let start_dt := _parse_iso start?
  let end_dt := _parse_iso end?
  let e := match end_dt with
    | Option.none => now
    | some d => d
  let s := match start_dt with
    | Option.none => subTwoHours e
    | some d => d
  (s, e)

/-! ### A heap-level rendering of `_limit_mover_payload`

To state the frame property (the input mapping and every object
reachable from it are not mutated; the result is a fresh shallow copy)
the function is also rendered over an explicit object heap: Python
objects live at addresses, lists hold addresses of their elements,
dicts map string keys to addresses. -/

/-- A heap object: a list of addresses, a dict from keys to addresses,
or an integer atom. -/
inductive Obj where
  | olist : List Nat → Obj
  | odict : List (String × Nat) → Obj
  | oint : Int → Obj

/-- A heap: object at address `a` is the `a`-th entry. -/
def Heap := List Obj

/-- Read the object at an address. -/
def hread (h : Heap) (a : Nat) : Option Obj := List.get? h a

/-- Allocate a fresh object, returning the new heap and its address. -/
def halloc (h : Heap) (o : Obj) : Heap × Nat := (List.append h [o], List.length h)

/-- Overwrite the object at an existing address. -/
def hset (h : Heap) (a : Nat) (o : Obj) : Heap := List.set h a o

/-- Heap-level rendering of the inner key loop of
`_limit_mover_payload` (main.py lines 86-91): walk the keys; on the
first whose value in the nested copy `nd` is a list object, allocate
the sliced list, point `nd`'s key at it, point the trimmed copy `t`'s
`side` key at `nd`, and stop. -/
def trimNestedHeap (t nd : Nat) (side : String) (limit : Int) :
    (h : Heap) → List String → Heap
  | h, [] => h
  | h, key :: rest =>
      match hread h nd with
      | some (.odict nes) =>
          match alookup nes key with
          | some ka =>
              match hread h ka with
              | some (.olist ys) =>
                  let al := halloc h (.olist (pySlice ys limit))
                  let h2 := hset al.1 nd (.odict (aupdate nes key al.2))
                  match hread h2 t with
                  | some (.odict tes) => hset h2 t (.odict (aupdate tes side nd))
                  | _ => h2
              | _ => trimNestedHeap t nd side limit h rest
          | Option.none => trimNestedHeap t nd side limit h rest
      | _ => h

/-- Heap-level rendering of one outer-loop iteration of
`_limit_mover_payload` (main.py lines 79-92) on the trimmed copy at
address `t`: absent side keys are skipped; a list value is sliced into
a fresh list object; a dict value is shallow-copied into a fresh
object and handed to the key loop; other shapes leave the heap
untouched. -/
def trimSideHeap (h : Heap) (t : Nat) (side : String) (limit : Int) : Heap :=
  match hread h t with
  | some (.odict es) =>
      match alookup es side with
      | Option.none => h
      | some va =>
          match hread h va with
          | some (.olist xs) =>
              let al := halloc h (.olist (pySlice xs limit))
              hset al.1 t (.odict (aupdate es side al.2))
          | some (.odict nes) =>
              let al := halloc h (.odict nes)
              trimNestedHeap t al.2 side limit al.1 ["items", "data", "list"]
          | _ => h
  | _ => h

/-- The function `_limit_mover_payload` (main.py lines 75-93) over the object heap:
non-dict payloads are returned as-is with the heap untouched; a dict
payload is shallow-copied into a fresh object whose `gainers` and
`losers` sides are then trimmed in place. -/
def limitMoverHeap (h : Heap) (payload : Nat) (limit : Int) : Heap × Nat :=
  match hread h payload with
  | some (.odict es) =>
      let al := halloc h (.odict es)
      let h2 := trimSideHeap al.1 al.2 "gainers" limit
      let h3 := trimSideHeap h2 al.2 "losers" limit
      (h3, al.2)
  | _ => (h, payload)

/-! ## Association-list lemmas -/

theorem alookup_aupdate_self {α : Type} (es : List (String × α)) (k : String)
    (v w : α) (h : alookup es k = some w) :
    alookup (aupdate es k v) k = some v := by
  induction es with
  | nil => simp [alookup] at h
  | cons e rest ih =>
      obtain ⟨k0, v0⟩ := e
      by_cases hk : k0 = k
      · subst hk
        simp [alookup, aupdate]
      · simp only [alookup, aupdate, if_neg hk] at h ⊢
        exact ih h

theorem alookup_aupdate_ne {α : Type} (es : List (String × α)) (k k' : String)
    (v : α) (h : k' ≠ k) :
    alookup (aupdate es k v) k' = alookup es k' := by
  induction es with
  | nil => simp [alookup, aupdate]
  | cons e rest ih =>
      obtain ⟨k0, v0⟩ := e
      by_cases hk : k0 = k
      · subst hk
        simp only [aupdate, if_pos rfl, alookup]
        rw [if_neg (fun hh => h hh.symm), if_neg (fun hh => h hh.symm)]
      · simp only [aupdate, if_neg hk, alookup]
        by_cases hk' : k0 = k'
        · simp [hk']
        · simp only [if_neg hk']
          exact ih

theorem aupdate_keys {α : Type} (es : List (String × α)) (k : String) (v : α) :
    (aupdate es k v).map Prod.fst = es.map Prod.fst := by
  induction es with
  | nil => rfl
  | cons e rest ih =>
      obtain ⟨k0, v0⟩ := e
      by_cases hk : k0 = k
      · simp [aupdate, hk]
      · simp [aupdate, if_neg hk, ih]

theorem aupdate_aupdate_self {α : Type} (es : List (String × α)) (k : String)
    (a b : α) : aupdate (aupdate es k a) k b = aupdate es k b := by
  induction es with
  | nil => rfl
  | cons e rest ih =>
      obtain ⟨k0, v0⟩ := e
      by_cases hk : k0 = k
      · simp [aupdate, hk]
      · simp [aupdate, if_neg hk, ih]

theorem aupdate_comm {α : Type} (es : List (String × α)) (k1 k2 : String)
    (a b : α) (h : k1 ≠ k2) :
    aupdate (aupdate es k1 a) k2 b = aupdate (aupdate es k2 b) k1 a := by
  induction es with
  | nil => rfl
  | cons e rest ih =>
      obtain ⟨k0, v0⟩ := e
      by_cases h1 : k0 = k1
      · subst h1
        simp [aupdate, if_neg (fun hh : k0 = k2 => h hh), if_pos rfl]
      · by_cases h2 : k0 = k2
        · subst h2
          simp [aupdate, if_neg h1, if_pos rfl]
        · simp [aupdate, if_neg h1, if_neg h2, ih]

/-! ## Slice lemmas -/

theorem pySlice_natCast {α : Type} (l : List α) (n : Nat) :
    pySlice l (n : Int) = l.take n := by
  simp [pySlice]

theorem pySlice_nonneg_idem {α : Type} (l : List α) (n : Int) (h : 0 ≤ n) :
    pySlice (pySlice l n) n = pySlice l n := by
  simp [pySlice, if_neg (not_lt.mpr h), List.take_take]

theorem pySlice_nonneg_length {α : Type} (l : List α) (n : Int) (h : 0 ≤ n) :
    (pySlice l n).length ≤ n.toNat := by
  simp [pySlice, if_neg (not_lt.mpr h)]

/-! ## Characterization of mover trimming -/

theorem trimNested_eq (nes : List (String × PyVal)) (limit : Int)
    (keys : List String) :
    trimNested nes limit keys =
      (firstListIn keys nes).map
        (fun p => aupdate nes p.1 (.list (pySlice p.2 limit))) := by
  induction keys with
  | nil => rfl
  | cons k rest ih =>
      simp only [trimNested, firstListIn]
      cases hv : alookup nes k with
      | none => simpa using ih
      | some v =>
          cases v <;> simp [ih]

theorem trimSide_alookup (es : List (String × PyVal)) (side : String)
    (limit : Int) (k : String) :
    alookup (trimSide es side limit) k =
      if k = side then (alookup es side).map (fun v => trimValueAt v limit)
      else alookup es k := by
  by_cases hk : k = side
  · subst hk
    cases hv : alookup es k with
    | none => simp [trimSide, hv]
    | some v =>
        cases v with
        | list xs =>
            simp [trimSide, hv, trimValueAt,
              alookup_aupdate_self es k _ _ hv]
        | dict nes =>
            simp only [trimSide, hv, trimNested_eq, trimValueAt]
            cases hf : firstListIn ["items", "data", "list"] nes with
            | none => simp [hf, hv]
            | some p =>
                obtain ⟨k0, ys⟩ := p
                simp [hf, alookup_aupdate_self es k _ _ hv]
        | int i => simp [trimSide, hv, trimValueAt]
        | str s => simp [trimSide, hv, trimValueAt]
        | none => simp [trimSide, hv, trimValueAt]
  · rw [if_neg hk]
    cases hv : alookup es side with
    | none => simp [trimSide, hv]
    | some v =>
        cases v with
        | list xs => simp [trimSide, hv, alookup_aupdate_ne _ _ _ _ hk]
        | dict nes =>
            simp only [trimSide, hv, trimNested_eq]
            cases hf : firstListIn ["items", "data", "list"] nes with
            | none => simp [hf]
            | some p =>
                obtain ⟨k0, ys⟩ := p
                simp [hf, alookup_aupdate_ne _ _ _ _ hk]
        | int i => simp [trimSide, hv]
        | str s => simp [trimSide, hv]
        | none => simp [trimSide, hv]

theorem trimValueAt_natCast (v : PyVal) (n : Nat) :
    trimValueAt v (n : Int) = trimValueSpec v n := by
  cases v with
  | list xs => simp [trimValueAt, trimValueSpec, pySlice_natCast]
  | dict nes =>
      simp only [trimValueAt, trimValueSpec]
      cases firstListIn ["items", "data", "list"] nes with
      | none => rfl
      | some p => simp [pySlice_natCast]
  | int i => rfl
  | str s => rfl
  | none => rfl

/-! ## Claim theorems -/

/-- C1 counterexample: the claim says any string other than the five
recognized tokens resolves to the 1-minute default, but the
whitespace-padded string " 1Hour" is not one of the tokens and yet
resolves to the 1-hour granularity. -/
theorem c1_resolve_timeframe_counterexample :
    _resolve_timeframe (some " 1Hour") = TimeFrame.Hour ∧
    TimeFrame.Hour ≠ TimeFrame.Minute ∧
    " 1Hour" ≠ "1Min" ∧ " 1Hour" ≠ "5Min" ∧ " 1Hour" ≠ "15Min" ∧
    " 1Hour" ≠ "1Hour" ∧ " 1Hour" ≠ "1Day" ∧ " 1Hour" ≠ "" := by
  decide

/-- C1 (amended): the timeframe resolver maps each recognized token
exactly — "1Min" to 1-minute, "5Min" to 5-minute, "15Min" to
15-minute, "1Hour" to 1-hour, "1Day" to 1-day — and for any other
string whose whitespace-stripped form is not a recognized token, or
for absent/empty input, it returns the 1-minute default without
raising an error. -/
theorem c1_resolve_timeframe_table :
    _resolve_timeframe Option.none = TimeFrame.Minute ∧
    _resolve_timeframe (some "") = TimeFrame.Minute ∧
    _resolve_timeframe (some "1Min") = TimeFrame.Minute ∧
    _resolve_timeframe (some "5Min") = ⟨5, TimeFrameUnit.Minute⟩ ∧
    _resolve_timeframe (some "15Min") = ⟨15, TimeFrameUnit.Minute⟩ ∧
    _resolve_timeframe (some "1Hour") = TimeFrame.Hour ∧
    _resolve_timeframe (some "1Day") = TimeFrame.Day ∧
    ∀ v : String, pyStrip v ≠ "1Min" → pyStrip v ≠ "5Min" →
      pyStrip v ≠ "15Min" → pyStrip v ≠ "1Hour" → pyStrip v ≠ "1Day" →
      _resolve_timeframe (some v) = TimeFrame.Minute := by
  refine ⟨by decide, by decide, by decide, by decide, by decide, by decide,
    by decide, ?_⟩
  intro v h1 h2 h3 h4 h5
  by_cases hv : v = ""
  · simp [_resolve_timeframe, hv]
  · simp [_resolve_timeframe, hv, h1, h2, h3, h4, h5]

/-- C1 witness: the unrecognized token "2Min" (which strips to itself)
resolves to the 1-minute default. -/
theorem c1_resolve_timeframe_witness :
    _resolve_timeframe (some "2Min") = TimeFrame.Minute :=
  c1_resolve_timeframe_table.2.2.2.2.2.2.2 "2Min"
    (by decide) (by decide) (by decide) (by decide) (by decide)

/-- C2: in the stock-bars handler, an absent/unparseable end resolves
to the current UTC instant (the `now` parameter), an absent/unparseable
start resolves to the resolved end minus exactly two hours, and two
parseable values are used unchanged. -/
theorem c2_stock_bars_range_defaults (s e : Option String) (now : PyDateTime) :
    (_parse_iso e = Option.none → (get_stock_bars_range s e now).2 = now) ∧
    (_parse_iso s = Option.none →
      (get_stock_bars_range s e now).1 =
        subTwoHours (get_stock_bars_range s e now).2) ∧
    (∀ sd ed, _parse_iso s = some sd → _parse_iso e = some ed →
      get_stock_bars_range s e now = (sd, ed)) := by
  refine ⟨?_, ?_, ?_⟩
  · intro h
    cases hs : _parse_iso s <;> simp [get_stock_bars_range, h, hs]
  · intro h
    cases he : _parse_iso e <;> simp [get_stock_bars_range, h, he]
  · intro sd ed hs he
    simp [get_stock_bars_range, hs, he]

/-- C2 witness: with no inputs the range is (now minus two hours, now);
with two parseable inputs both parsed instants are used unchanged. -/
theorem c2_stock_bars_range_witness :
    (get_stock_bars_range Option.none Option.none
        ⟨2025, 6, 15, 12, 30, 0, 0, some 0⟩).2 =
      ⟨2025, 6, 15, 12, 30, 0, 0, some 0⟩ ∧
    (get_stock_bars_range Option.none Option.none
        ⟨2025, 6, 15, 12, 30, 0, 0, some 0⟩).1 =
      subTwoHours ⟨2025, 6, 15, 12, 30, 0, 0, some 0⟩ ∧
    get_stock_bars_range (some "2025-01-02T03:04:05")
        (some "2025-01-02T05:06:07Z") ⟨2025, 6, 15, 12, 30, 0, 0, some 0⟩ =
      (⟨2025, 1, 2, 3, 4, 5, 0, Option.none⟩,
       ⟨2025, 1, 2, 5, 6, 7, 0, some 0⟩) := by
  refine ⟨(c2_stock_bars_range_defaults Option.none Option.none _).1 rfl, ?_, ?_⟩
  · rw [(c2_stock_bars_range_defaults Option.none Option.none
      ⟨2025, 6, 15, 12, 30, 0, 0, some 0⟩).2.1 rfl,
      (c2_stock_bars_range_defaults Option.none Option.none
      ⟨2025, 6, 15, 12, 30, 0, 0, some 0⟩).1 rfl]
  · exact (c2_stock_bars_range_defaults _ _ _).2.2 _ _ (by decide) (by decide)

/-- C3: mover trimming, pointwise: on a mapping payload the value under
each of `gainers`/`losers` is transformed exactly as the specification
describes (lists truncated to the first N elements, nested mappings
trimmed at the first of `items`/`data`/`list` holding a list, all other
shapes untouched), every other key is unchanged, and non-mapping
payloads pass through unmodified. -/
theorem c3_limit_mover_pointwise :
    (∀ (es : List (String × PyVal)) (n : Nat) (k : String),
      dictLookup (_limit_mover_payload (.dict es) (n : Int)) k =
        if k = "gainers" ∨ k = "losers" then
          (alookup es k).map (fun v => trimValueSpec v n)
        else alookup es k) ∧
    (∀ (xs : List PyVal) (n : Int), _limit_mover_payload (.list xs) n = .list xs) ∧
    (∀ (i : Int) (n : Int), _limit_mover_payload (.int i) n = .int i) ∧
    (∀ (s : String) (n : Int), _limit_mover_payload (.str s) n = .str s) ∧
    (∀ (n : Int), _limit_mover_payload .none n = .none) := by
  refine ⟨?_, fun _ _ => rfl, fun _ _ => rfl, fun _ _ => rfl, fun _ => rfl⟩
  intro es n k
  show alookup (trimSide (trimSide es "gainers" (n : Int)) "losers" (n : Int)) k = _
  by_cases hg : k = "gainers"
  · subst hg
    simp [trimSide_alookup, trimValueAt_natCast]
  · by_cases hl : k = "losers"
    · subst hl
      simp [trimSide_alookup, trimValueAt_natCast]
    · simp [trimSide_alookup, hg, hl]

/-- C7: the serializer prefers the structured dump capability, falls
back to the plain dictionary conversion, and otherwise passes the
object through unchanged; the first applicable branch always wins. -/
theorem c7_serialize_response_priority (r : VendorResponse) :
    (∀ d, r.model_dump = some d → _serialize_response r = d) ∧
    (r.model_dump = Option.none → ∀ d, r.dict = some d →
      _serialize_response r = d) ∧
    (r.model_dump = Option.none → r.dict = Option.none →
      _serialize_response r = r.raw) := by
  refine ⟨?_, ?_, ?_⟩
  · intro d hd
    simp [_serialize_response, hd]
  · intro h1 d hd
    simp [_serialize_response, h1, hd]
  · intro h1 h2
    simp [_serialize_response, h1, h2]

/-- C7 witness: on concrete objects with both, one, or neither
capability, each branch is exercised and the first applicable wins. -/
theorem c7_serialize_response_witness :
    _serialize_response ⟨some (.int 1), some (.int 2), .int 3⟩ = .int 1 ∧
    _serialize_response ⟨Option.none, some (.int 2), .int 3⟩ = .int 2 ∧
    _serialize_response ⟨Option.none, Option.none, .int 3⟩ = .int 3 :=
  ⟨(c7_serialize_response_priority ⟨some (.int 1), some (.int 2), .int 3⟩).1
      (.int 1) rfl,
   (c7_serialize_response_priority ⟨Option.none, some (.int 2), .int 3⟩).2.1
      rfl (.int 2) rfl,
   (c7_serialize_response_priority ⟨Option.none, Option.none, .int 3⟩).2.2
      rfl rfl⟩

/-! ## Idempotence machinery for mover trimming -/

theorem trimSide_eq_sideNewValue (es : List (String × PyVal)) (side : String)
    (limit : Int) :
    trimSide es side limit =
      match sideNewValue es side limit with
      | some v => aupdate es side v
      | Option.none => es := by
  cases hv : alookup es side with
  | none => simp [trimSide, sideNewValue, hv]
  | some v =>
      cases v with
      | list xs => simp [trimSide, sideNewValue, hv]
      | dict nes =>
          cases ht : trimNested nes limit ["items", "data", "list"] with
          | none => simp [trimSide, sideNewValue, hv, ht]
          | some nes2 => simp [trimSide, sideNewValue, hv, ht]
      | int i => simp [trimSide, sideNewValue, hv]
      | str s => simp [trimSide, sideNewValue, hv]
      | none => simp [trimSide, sideNewValue, hv]

theorem sideNewValue_congr (es1 es2 : List (String × PyVal)) (side : String)
    (limit : Int) (h : alookup es1 side = alookup es2 side) :
    sideNewValue es1 side limit = sideNewValue es2 side limit := by
  unfold sideNewValue
  rw [h]

theorem firstListIn_mem (keys : List String) (nes : List (String × PyVal))
    (k0 : String) (ys : List PyVal)
    (h : firstListIn keys nes = some (k0, ys)) : k0 ∈ keys := by
  induction keys with
  | nil => simp [firstListIn] at h
  | cons k rest ih =>
      simp only [firstListIn] at h
      cases hv : alookup nes k with
      | none =>
          rw [hv] at h
          exact List.mem_cons_of_mem _ (ih h)
      | some w =>
          cases w with
          | list ys' =>
              rw [hv] at h
              injection h with h'
              injection h' with h1 h2
              exact h1 ▸ List.mem_cons_self _ _
          | dict nes' =>
              rw [hv] at h
              exact List.mem_cons_of_mem _ (ih h)
          | int i =>
              rw [hv] at h
              exact List.mem_cons_of_mem _ (ih h)
          | str s =>
              rw [hv] at h
              exact List.mem_cons_of_mem _ (ih h)
          | none =>
              rw [hv] at h
              exact List.mem_cons_of_mem _ (ih h)

theorem firstListIn_aupdate (keys : List String) (nes : List (String × PyVal))
    (k0 : String) (ys L : List PyVal) (hnd : keys.Nodup)
    (h : firstListIn keys nes = some (k0, ys)) :
    firstListIn keys (aupdate nes k0 (.list L)) = some (k0, L) := by
  induction keys with
  | nil => simp [firstListIn] at h
  | cons k rest ih =>
      simp only [firstListIn] at h ⊢
      cases hv : alookup nes k with
      | none =>
          rw [hv] at h
          have hk : k ≠ k0 := by
            intro hkk
            exact (List.nodup_cons.mp hnd).1 (hkk ▸ firstListIn_mem rest nes k0 ys h)
          rw [alookup_aupdate_ne nes k0 k (.list L) hk, hv]
          exact ih (List.nodup_cons.mp hnd).2 h
      | some w =>
          cases w with
          | list ys' =>
              rw [hv] at h
              injection h with h'
              injection h' with h1 h2
              subst h1
              rw [alookup_aupdate_self nes k (.list L) _ hv]
          | dict nes' =>
              rw [hv] at h
              have hk : k ≠ k0 := by
                intro hkk
                exact (List.nodup_cons.mp hnd).1
                  (hkk ▸ firstListIn_mem rest nes k0 ys h)
              rw [alookup_aupdate_ne nes k0 k (.list L) hk, hv]
              exact ih (List.nodup_cons.mp hnd).2 h
          | int i =>
              rw [hv] at h
              have hk : k ≠ k0 := by
                intro hkk
                exact (List.nodup_cons.mp hnd).1
                  (hkk ▸ firstListIn_mem rest nes k0 ys h)
              rw [alookup_aupdate_ne nes k0 k (.list L) hk, hv]
              exact ih (List.nodup_cons.mp hnd).2 h
          | str s =>
              rw [hv] at h
              have hk : k ≠ k0 := by
                intro hkk
                exact (List.nodup_cons.mp hnd).1
                  (hkk ▸ firstListIn_mem rest nes k0 ys h)
              rw [alookup_aupdate_ne nes k0 k (.list L) hk, hv]
              exact ih (List.nodup_cons.mp hnd).2 h
          | none =>
              rw [hv] at h
              have hk : k ≠ k0 := by
                intro hkk
                exact (List.nodup_cons.mp hnd).1
                  (hkk ▸ firstListIn_mem rest nes k0 ys h)
              rw [alookup_aupdate_ne nes k0 k (.list L) hk, hv]
              exact ih (List.nodup_cons.mp hnd).2 h

theorem sideNewValue_lookup_some (es : List (String × PyVal)) (side : String)
    (limit : Int) (v : PyVal) (h : sideNewValue es side limit = some v) :
    ∃ w, alookup es side = some w := by
  unfold sideNewValue at h
  cases hv : alookup es side with
  | none => rw [hv] at h; exact absurd h (by simp)
  | some w => exact ⟨w, rfl⟩

theorem sideNewValue_aupdate_self (es : List (String × PyVal)) (side : String)
    (limit : Int) (v : PyVal) (hl : 0 ≤ limit)
    (h : sideNewValue es side limit = some v) :
    sideNewValue (aupdate es side v) side limit = some v := by
  cases hv : alookup es side with
  | none => simp [sideNewValue, hv] at h
  | some w =>
      cases w with
      | list xs =>
          simp only [sideNewValue, hv, Option.some.injEq] at h
          subst h
          simp [sideNewValue, alookup_aupdate_self es side _ _ hv,
            pySlice_nonneg_idem xs limit hl]
      | dict nes =>
          simp only [sideNewValue, hv, trimNested_eq] at h
          cases hf : firstListIn ["items", "data", "list"] nes with
          | none => rw [hf] at h; simp at h
          | some p =>
              obtain ⟨k0, ys⟩ := p
              rw [hf] at h
              simp at h
              subst h
              simp [sideNewValue, alookup_aupdate_self es side _ _ hv,
                trimNested_eq,
                firstListIn_aupdate ["items", "data", "list"] nes k0 ys
                  (pySlice ys limit) (by decide) hf,
                pySlice_nonneg_idem ys limit hl, aupdate_aupdate_self]
      | int i => simp [sideNewValue, hv] at h
      | str s => simp [sideNewValue, hv] at h
      | none => simp [sideNewValue, hv] at h

theorem trimSide_idem (es : List (String × PyVal)) (side : String)
    (limit : Int) (hl : 0 ≤ limit) :
    trimSide (trimSide es side limit) side limit = trimSide es side limit := by
  cases hu : sideNewValue es side limit with
  | none =>
      have e1 : trimSide es side limit = es := by
        rw [trimSide_eq_sideNewValue, hu]
      rw [e1, e1]
  | some v =>
      have e1 : trimSide es side limit = aupdate es side v := by
        rw [trimSide_eq_sideNewValue, hu]
      rw [e1, trimSide_eq_sideNewValue,
        sideNewValue_aupdate_self es side limit v hl hu]
      exact aupdate_aupdate_self es side v v

theorem trimSide_comm (es : List (String × PyVal)) (s1 s2 : String)
    (limit : Int) (h : s1 ≠ s2) :
    trimSide (trimSide es s1 limit) s2 limit =
      trimSide (trimSide es s2 limit) s1 limit := by
  have l12 : ∀ v, alookup (aupdate es s1 v) s2 = alookup es s2 := fun v =>
    alookup_aupdate_ne es s1 s2 v (fun hh => h hh.symm)
  have l21 : ∀ v, alookup (aupdate es s2 v) s1 = alookup es s1 := fun v =>
    alookup_aupdate_ne es s2 s1 v h
  have c1 : sideNewValue (trimSide es s2 limit) s1 limit =
      sideNewValue es s1 limit := by
    rw [trimSide_eq_sideNewValue es s2]
    cases hu2 : sideNewValue es s2 limit with
    | none => rfl
    | some v2 => exact sideNewValue_congr _ es s1 limit (l21 v2)
  have c2 : sideNewValue (trimSide es s1 limit) s2 limit =
      sideNewValue es s2 limit := by
    rw [trimSide_eq_sideNewValue es s1]
    cases hu1 : sideNewValue es s1 limit with
    | none => rfl
    | some v1 => exact sideNewValue_congr _ es s2 limit (l12 v1)
  rw [trimSide_eq_sideNewValue (trimSide es s1 limit) s2, c2,
    trimSide_eq_sideNewValue (trimSide es s2 limit) s1, c1,
    trimSide_eq_sideNewValue es s1, trimSide_eq_sideNewValue es s2]
  cases hu1 : sideNewValue es s1 limit with
  | none => cases hu2 : sideNewValue es s2 limit <;> rfl
  | some v1 =>
      cases hu2 : sideNewValue es s2 limit with
      | none => rfl
      | some v2 => exact aupdate_comm es s1 s2 v1 v2 h

/-- C9: mover trimming is idempotent for every payload and every
non-negative limit: trimming an already-trimmed payload with the same
limit yields the same result as trimming once. -/
theorem c9_limit_mover_idempotent (p : PyVal) (n : Nat) :
    _limit_mover_payload (_limit_mover_payload p (n : Int)) (n : Int) =
      _limit_mover_payload p (n : Int) := by
  have hn : (0 : Int) ≤ (n : Int) := Int.natCast_nonneg n
  cases p with
  | dict es =>
      show PyVal.dict _ = PyVal.dict _
      congr 1
      have step1 :
          trimSide (trimSide (trimSide (trimSide es "gainers" (n : Int))
              "losers" (n : Int)) "gainers" (n : Int)) "losers" (n : Int) =
            trimSide (trimSide (trimSide es "gainers" (n : Int))
              "gainers" (n : Int)) "losers" (n : Int) := by
        rw [trimSide_comm (trimSide es "gainers" (n : Int)) "losers" "gainers"
          (n : Int) (by decide), trimSide_idem _ "losers" (n : Int) hn]
      rw [step1, trimSide_idem es "gainers" (n : Int) hn]
  | int i => rfl
  | str s => rfl
  | none => rfl
  | list xs => rfl

/-! ## The crypto movers endpoint -/

/-- C8: the crypto-market-movers handler always builds its vendor
request with top = 20 (first conjunct: the handler's result is obtained
from the vendor response to exactly that request), and in the returned
payload each of the `gainers`/`losers` sides holds at most 6 entries:
a side that is a list has length at most 6, and a side that is a
mapping has its first `items`/`data`/`list` list of length at most 6. -/
theorem c8_crypto_movers_top20_trim6
    (f : MarketMoversRequest → VendorResponse) :
    get_crypto_stock_market_movers f =
      .dict [("crypto_market_movers",
        _limit_mover_payload
          (_serialize_response (f ⟨20, MarketType.CRYPTO⟩)) 6)] ∧
    (∀ pay side v,
      dictLookup (get_crypto_stock_market_movers f) "crypto_market_movers" =
        some pay →
      side = "gainers" ∨ side = "losers" →
      dictLookup pay side = some v →
      (∀ xs, v = .list xs → xs.length ≤ 6) ∧
      (∀ nes k ys, v = .dict nes →
        firstListIn ["items", "data", "list"] nes = some (k, ys) →
        ys.length ≤ 6)) := by
  refine ⟨rfl, ?_⟩
  intro pay side v hpay hside hv
  have hpay' : pay =
      _limit_mover_payload (_serialize_response (f ⟨20, MarketType.CRYPTO⟩)) 6 := by
    have := hpay
    simp [get_crypto_stock_market_movers, dictLookup, alookup] at this
    exact this.symm
  subst hpay'
  have hlen : ∀ ys : List PyVal, (pySlice ys (6 : Int)).length ≤ 6 := by
    intro ys
    have := pySlice_nonneg_length ys (6 : Int) (by norm_num)
    simpa using this
  cases hq : _serialize_response (f ⟨20, MarketType.CRYPTO⟩) with
  | dict es =>
      rw [hq] at hv
      have hchar : dictLookup (_limit_mover_payload (.dict es) 6) side =
          (alookup es side).map (fun w => trimValueAt w 6) := by
        show alookup (trimSide (trimSide es "gainers" 6) "losers" 6) side = _
        rcases hside with rfl | rfl <;> simp [trimSide_alookup]
      rw [hchar] at hv
      cases hw : alookup es side with
      | none => rw [hw] at hv; simp at hv
      | some w =>
          rw [hw] at hv
          simp only [Option.map_some', Option.some.injEq] at hv
          subst hv
          constructor
          · intro xs hxs
            cases w with
            | list xs0 =>
                simp only [trimValueAt, PyVal.list.injEq] at hxs
                subst hxs
                exact hlen xs0
            | dict nes0 =>
                simp only [trimValueAt] at hxs
                cases hf0 : firstListIn ["items", "data", "list"] nes0 with
                | none => rw [hf0] at hxs; simp at hxs
                | some p => rw [hf0] at hxs; simp at hxs
            | int i => simp [trimValueAt] at hxs
            | str s => simp [trimValueAt] at hxs
            | none => simp [trimValueAt] at hxs
          · intro nes k ys hnes hfl
            cases w with
            | list xs0 => simp [trimValueAt] at hnes
            | dict nes0 =>
                simp only [trimValueAt] at hnes
                cases hf0 : firstListIn ["items", "data", "list"] nes0 with
                | none =>
                    rw [hf0] at hnes
                    simp only [PyVal.dict.injEq] at hnes
                    subst hnes
                    rw [hf0] at hfl
                    simp at hfl
                | some p =>
                    obtain ⟨k1, ys1⟩ := p
                    rw [hf0] at hnes
                    simp only [PyVal.dict.injEq] at hnes
                    subst hnes
                    rw [firstListIn_aupdate ["items", "data", "list"] nes0 k1
                      ys1 (pySlice ys1 6) (by decide) hf0] at hfl
                    simp only [Option.some.injEq, Prod.mk.injEq] at hfl
                    rw [← hfl.2]
                    exact hlen ys1
            | int i => simp [trimValueAt] at hnes
            | str s => simp [trimValueAt] at hnes
            | none => simp [trimValueAt] at hnes
  | list xs => rw [hq] at hv; simp [_limit_mover_payload, dictLookup] at hv
  | int i => rw [hq] at hv; simp [_limit_mover_payload, dictLookup] at hv
  | str s => rw [hq] at hv; simp [_limit_mover_payload, dictLookup] at hv
  | none => rw [hq] at hv; simp [_limit_mover_payload, dictLookup] at hv

/-- C8 witness: a vendor stub returning seven gainers yields a payload
whose gainers list, of length 6, satisfies the bound. -/
theorem c8_crypto_movers_witness :
    ([PyVal.int 1, .int 2, .int 3, .int 4, .int 5, .int 6] : List PyVal).length ≤ 6 :=
  ((c8_crypto_movers_top20_trim6 (fun _ =>
      ⟨some (.dict [("gainers",
          .list [.int 1, .int 2, .int 3, .int 4, .int 5, .int 6, .int 7])]),
        Option.none, .int 0⟩)).2
    (.dict [("gainers", .list [.int 1, .int 2, .int 3, .int 4, .int 5, .int 6])])
    "gainers" (.list [.int 1, .int 2, .int 3, .int 4, .int 5, .int 6])
    rfl (Or.inl rfl) rfl).1
    [.int 1, .int 2, .int 3, .int 4, .int 5, .int 6] rfl

/-! ## Whitespace stripping -/

theorem dropWhile_append_all (p : Char → Bool) (w l : List Char)
    (hw : ∀ c ∈ w, p c = true) :
    List.dropWhile p (w ++ l) = List.dropWhile p l := by
  induction w with
  | nil => rfl
  | cons c w ih =>
      have hc : p c = true := hw c (List.mem_cons_self c w)
      simp only [List.cons_append, List.dropWhile_cons, hc, if_true]
      exact ih (fun x hx => hw x (List.mem_cons_of_mem c hx))

theorem stripChars_sandwich (c d : Char) (mid w1 w2 : List Char)
    (hc : pyIsSpace c = false) (hd : pyIsSpace d = false)
    (hw1 : ∀ x ∈ w1, pyIsSpace x = true)
    (hw2 : ∀ x ∈ w2, pyIsSpace x = true) :
    stripChars (w1 ++ (c :: (mid ++ [d])) ++ w2) = c :: (mid ++ [d]) := by
  unfold stripChars
  have h1 : List.dropWhile pyIsSpace (w1 ++ (c :: (mid ++ [d])) ++ w2) =
      c :: ((mid ++ [d]) ++ w2) := by
    rw [List.append_assoc, dropWhile_append_all pyIsSpace w1 _ hw1]
    simp [List.dropWhile_cons, hc]
  rw [h1]
  have h3 : (c :: ((mid ++ [d]) ++ w2)).reverse =
      w2.reverse ++ (d :: (mid.reverse ++ [c])) := by
    simp [List.reverse_cons, List.reverse_append, List.append_assoc]
  rw [h3]
  have h2 : List.dropWhile pyIsSpace (w2.reverse ++ (d :: (mid.reverse ++ [c]))) =
      d :: (mid.reverse ++ [c]) := by
    rw [dropWhile_append_all pyIsSpace w2.reverse _
      (fun x hx => hw2 x (List.mem_reverse.mp hx))]
    simp [List.dropWhile_cons, hd]
  rw [h2]
  simp [List.reverse_cons, List.reverse_append, List.reverse_reverse]

/-- C10: the timeframe resolver strips leading and trailing whitespace
before matching: resolving a recognized token padded with any
surrounding whitespace gives the same granularity as resolving the
bare token. -/
theorem c10_resolve_timeframe_strip (t w1 w2 : String)
    (ht : t = "1Min" ∨ t = "5Min" ∨ t = "15Min" ∨ t = "1Hour" ∨ t = "1Day")
    (hw1 : ∀ c ∈ w1.data, pyIsSpace c = true)
    (hw2 : ∀ c ∈ w2.data, pyIsSpace c = true) :
    _resolve_timeframe (some (w1 ++ t ++ w2)) = _resolve_timeframe (some t) := by
  have key : ∀ (c : Char) (midl : List Char) (d : Char),
      pyIsSpace c = false → pyIsSpace d = false →
      t.data = c :: (midl ++ [d]) → pyStrip (w1 ++ t ++ w2) = t := by
    intro c midl d hc hd hdata
    show String.mk (stripChars (w1 ++ t ++ w2).data) = t
    have hdcat : (w1 ++ t ++ w2).data = w1.data ++ t.data ++ w2.data := rfl
    rw [hdcat, hdata,
      stripChars_sandwich c d midl w1.data w2.data hc hd hw1 hw2, ← hdata]
  have hne : ∀ (u : String) (n : Nat), u.data.length = n → 0 < n →
      (w1 ++ u ++ w2) ≠ "" := by
    intro u n hn hpos hemp
    have h0 : (w1 ++ u ++ w2).data.length = 0 := by rw [hemp]; rfl
    have h1 : (w1 ++ u ++ w2).data.length =
        w1.data.length + u.data.length + w2.data.length := by
      show (w1.data ++ u.data ++ w2.data).length = _
      rw [List.length_append, List.length_append]
    omega
  rcases ht with rfl | rfl | rfl | rfl | rfl
  · have hs := key '1' ['M', 'i'] 'n' (by decide) (by decide) rfl
    rw [show _resolve_timeframe (some "1Min") = TimeFrame.Minute from by decide]
    simp [_resolve_timeframe, hne "1Min" 4 rfl (by norm_num), hs]
  · have hs := key '5' ['M', 'i'] 'n' (by decide) (by decide) rfl
    rw [show _resolve_timeframe (some "5Min") = ⟨5, TimeFrameUnit.Minute⟩
      from by decide]
    simp [_resolve_timeframe, hne "5Min" 4 rfl (by norm_num), hs]
  · have hs := key '1' ['5', 'M', 'i'] 'n' (by decide) (by decide) rfl
    rw [show _resolve_timeframe (some "15Min") = ⟨15, TimeFrameUnit.Minute⟩
      from by decide]
    simp [_resolve_timeframe, hne "15Min" 5 rfl (by norm_num), hs]
  · have hs := key '1' ['H', 'o', 'u'] 'r' (by decide) (by decide) rfl
    rw [show _resolve_timeframe (some "1Hour") = TimeFrame.Hour from by decide]
    simp [_resolve_timeframe, hne "1Hour" 5 rfl (by norm_num), hs]
  · have hs := key '1' ['D', 'a'] 'y' (by decide) (by decide) rfl
    rw [show _resolve_timeframe (some "1Day") = TimeFrame.Day from by decide]
    simp [_resolve_timeframe, hne "1Day" 4 rfl (by norm_num), hs]

/-- C10 witness: "1Min" padded with a leading no-break space (U+00A0)
and a trailing tab-space pad resolves like the bare token. -/
theorem c10_resolve_timeframe_strip_witness :
    _resolve_timeframe (some ("\u00A0" ++ "1Min" ++ "\t ")) =
      _resolve_timeframe (some "1Min") :=
  c10_resolve_timeframe_strip "1Min" "\u00A0" "\t " (Or.inl rfl)
    (by decide) (by decide)

/-! ## ISO-parser composition lemmas -/

theorem parse2_append (l x : List Char) (n : Nat) (r : List Char)
    (h : parse2 l = some (n, r)) : parse2 (l ++ x) = some (n, r ++ x) := by
  cases l with
  | nil => simp [parse2] at h
  | cons c1 t =>
      cases t with
      | nil => simp [parse2] at h
      | cons c2 rest =>
          cases hd1 : digitVal c1 with
          | none => simp [parse2, hd1] at h
          | some a =>
              cases hd2 : digitVal c2 with
              | none => simp [parse2, hd1, hd2] at h
              | some b =>
                  simp [parse2, hd1, hd2] at h ⊢
                  exact ⟨h.1, by rw [h.2]⟩

theorem parse2_length (l : List Char) (n : Nat) (r : List Char)
    (h : parse2 l = some (n, r)) : l.length = r.length + 2 := by
  cases l with
  | nil => simp [parse2] at h
  | cons c1 t =>
      cases t with
      | nil => simp [parse2] at h
      | cons c2 rest =>
          cases hd1 : digitVal c1 with
          | none => simp [parse2, hd1] at h
          | some a =>
              cases hd2 : digitVal c2 with
              | none => simp [parse2, hd1, hd2] at h
              | some b =>
                  simp [parse2, hd1, hd2] at h
                  simp [← h.2]

theorem parse4_append (l x : List Char) (n : Nat) (r : List Char)
    (h : parse4 l = some (n, r)) : parse4 (l ++ x) = some (n, r ++ x) := by
  cases h1 : parse2 l with
  | none => simp [parse4, h1] at h
  | some p1 =>
      obtain ⟨hi, r1⟩ := p1
      cases h2 : parse2 r1 with
      | none => simp [parse4, h1, h2] at h
      | some p2 =>
          obtain ⟨lo, r2⟩ := p2
          simp [parse4, h1, h2] at h
          simp [parse4, parse2_append l x hi r1 h1,
            parse2_append r1 x lo r2 h2, h.1, h.2]

theorem parse4_length (l : List Char) (n : Nat) (r : List Char)
    (h : parse4 l = some (n, r)) : l.length = r.length + 4 := by
  cases h1 : parse2 l with
  | none => simp [parse4, h1] at h
  | some p1 =>
      obtain ⟨hi, r1⟩ := p1
      cases h2 : parse2 r1 with
      | none => simp [parse4, h1, h2] at h
      | some p2 =>
          obtain ⟨lo, r2⟩ := p2
          simp [parse4, h1, h2] at h
          have e1 := parse2_length l hi r1 h1
          have e2 := parse2_length r1 lo r2 h2
          rw [← h.2]
          omega

theorem takeWhile_append_headfail (p : Char → Bool) (l suf : List Char)
    (hsuf : ∀ c, suf.head? = some c → p c = false) :
    (l ++ suf).takeWhile p = l.takeWhile p := by
  induction l with
  | nil =>
      cases suf with
      | nil => rfl
      | cons c cs => simp [List.takeWhile_cons, hsuf c rfl]
  | cons c l ih =>
      cases hpc : p c <;> simp [List.takeWhile_cons, hpc, ih]

theorem dropWhile_append_headfail (p : Char → Bool) (l suf : List Char)
    (hsuf : ∀ c, suf.head? = some c → p c = false) :
    (l ++ suf).dropWhile p = l.dropWhile p ++ suf := by
  induction l with
  | nil =>
      cases suf with
      | nil => rfl
      | cons c cs => simp [List.dropWhile_cons, hsuf c rfl]
  | cons c l ih =>
      cases hpc : p c <;> simp [List.dropWhile_cons, hpc, ih]

theorem parseFrac_append (l suf : List Char) (us : Nat) (r : List Char)
    (hsuf : ∀ c, suf.head? = some c → c.isDigit = false)
    (h : parseFrac l = some (us, r)) :
    parseFrac (l ++ suf) = some (us, r ++ suf) := by
  simp only [parseFrac] at h ⊢
  rw [takeWhile_append_headfail Char.isDigit l suf hsuf,
    dropWhile_append_headfail Char.isDigit l suf hsuf]
  by_cases hds : l.takeWhile Char.isDigit = []
  · rw [if_pos hds] at h
    simp at h
  · rw [if_neg hds] at h ⊢
    simp only [Option.some.injEq, Prod.mk.injEq] at h ⊢
    exact ⟨h.1, by rw [← h.2]⟩

theorem parseTime_append_plus (l suf : List Char) (hh mm ss us : Nat)
    (r : List Char) (h : parseTime l = some (hh, mm, ss, us, r)) :
    parseTime (l ++ '+' :: suf) = some (hh, mm, ss, us, r ++ '+' :: suf) := by
  have hplus : ∀ c : Char, ('+' :: suf).head? = some c → c.isDigit = false := by
    intro c hc
    simp at hc
    subst hc
    decide
  cases hp1 : parse2 l with
  | none => simp [parseTime, hp1] at h
  | some p1 =>
      obtain ⟨hh1, r1⟩ := p1
      have hp1x := parse2_append l ('+' :: suf) hh1 r1 hp1
      cases r1 with
      | nil =>
          simp [parseTime, hp1] at h
          obtain ⟨rfl, rfl, rfl, rfl, rfl⟩ := h
          simp [parseTime, hp1x]
      | cons c r1' =>
          by_cases hc : c = ':'
          · subst hc
            cases hp2 : parse2 r1' with
            | none => simp [parseTime, hp1, hp2] at h
            | some p2 =>
                obtain ⟨mm1, r3⟩ := p2
                have hp2x := parse2_append r1' ('+' :: suf) mm1 r3 hp2
                cases r3 with
                | nil =>
                    simp [parseTime, hp1, hp2] at h
                    obtain ⟨rfl, rfl, rfl, rfl, rfl⟩ := h
                    simp [parseTime, hp1x, hp2x]
                | cons c3 r4 =>
                    by_cases hc3 : c3 = ':'
                    · subst hc3
                      cases hp3 : parse2 r4 with
                      | none => simp [parseTime, hp1, hp2, hp3] at h
                      | some p3 =>
                          obtain ⟨ss1, r5⟩ := p3
                          have hp3x := parse2_append r4 ('+' :: suf) ss1 r5 hp3
                          cases r5 with
                          | nil =>
                              simp [parseTime, hp1, hp2, hp3] at h
                              obtain ⟨rfl, rfl, rfl, rfl, rfl⟩ := h
                              simp [parseTime, hp1x, hp2x, hp3x]
                          | cons c5 r6 =>
                              by_cases hc5 : c5 = '.'
                              · subst hc5
                                cases hf : parseFrac r6 with
                                | none =>
                                    simp [parseTime, hp1, hp2, hp3, hf] at h
                                | some pf =>
                                    obtain ⟨us1, r7⟩ := pf
                                    have hfx := parseFrac_append r6 ('+' :: suf)
                                      us1 r7 hplus hf
                                    simp [parseTime, hp1, hp2, hp3, hf] at h
                                    obtain ⟨rfl, rfl, rfl, rfl, rfl⟩ := h
                                    simp [parseTime, hp1x, hp2x, hp3x, hfx]
                              · by_cases hc5' : c5 = ','
                                · subst hc5'
                                  cases hf : parseFrac r6 with
                                  | none =>
                                      simp [parseTime, hp1, hp2, hp3, hf] at h
                                  | some pf =>
                                      obtain ⟨us1, r7⟩ := pf
                                      have hfx := parseFrac_append r6 ('+' :: suf)
                                        us1 r7 hplus hf
                                      simp [parseTime, hp1, hp2, hp3, hf] at h
                                      obtain ⟨rfl, rfl, rfl, rfl, rfl⟩ := h
                                      simp [parseTime, hp1x, hp2x, hp3x, hfx]
                                · simp [parseTime, hp1, hp2, hp3, hc5, hc5'] at h
                                  obtain ⟨rfl, rfl, rfl, rfl, rfl⟩ := h
                                  simp [parseTime, hp1x, hp2x, hp3x, hc5, hc5']
                    · simp [parseTime, hp1, hp2, hc3] at h
                      obtain ⟨rfl, rfl, rfl, rfl, rfl⟩ := h
                      simp [parseTime, hp1x, hp2x, hc3]
          · simp [parseTime, hp1, hc] at h
            obtain ⟨rfl, rfl, rfl, rfl, rfl⟩ := h
            simp [parseTime, hp1x, hc]

theorem parseOffset_none_nil (r : List Char)
    (h : parseOffset r = some Option.none) : r = [] := by
  cases r with
  | nil => rfl
  | cons c t =>
      exfalso
      by_cases hc : c = '+' ∨ c = '-'
      · rw [parseOffset, if_pos hc] at h
        cases hp : parse2 t with
        | none => rw [hp] at h; simp at h
        | some p =>
            obtain ⟨hh, r1⟩ := p
            rw [hp] at h
            cases r1 with
            | nil => simp at h
            | cons c2 t2 =>
                by_cases hc2 : c2 = ':'
                · subst hc2
                  cases hp2 : parse2 t2 with
                  | none => simp [hp2] at h
                  | some p2 =>
                      obtain ⟨mm, r3⟩ := p2
                      simp only [hp2] at h
                      by_cases hcond : r3 = [] ∧ hh ≤ 23 ∧ mm ≤ 59
                      · simp [hcond] at h
                      · simp [hcond] at h
                · simp [hc2] at h
      · rw [parseOffset, if_neg hc] at h
        simp at h

theorem parseOffset_plus00 :
    parseOffset ('+' :: '0' :: '0' :: ':' :: '0' :: '0' :: []) =
      some (some 0) := by decide

theorem mkValid_utcoffset (y mo d hh mm ss us : Nat) (tz : Option Int)
    (dt : PyDateTime) (h : mkValid y mo d hh mm ss us tz = some dt) :
    dt.utcoffset = tz := by
  unfold mkValid at h
  split at h
  · injection h with h'
    subst h'
    rfl
  · simp at h

theorem mkValid_set_tz (y mo d hh mm ss us : Nat) (tz tz' : Option Int)
    (dt : PyDateTime) (h : mkValid y mo d hh mm ss us tz = some dt) :
    mkValid y mo d hh mm ss us tz' = some { dt with utcoffset := tz' } := by
  unfold mkValid at h ⊢
  split at h
  · next hcond =>
      rw [if_pos hcond]
      injection h with h'
      subst h'
      rfl
  · simp at h

theorem fromisoformat_append_offset (b : String) (dt : PyDateTime)
    (h : fromisoformat b = some dt) (hnv : dt.utcoffset = Option.none)
    (hlen : 10 < b.data.length) :
    fromisoformat (b ++ "+00:00") = some { dt with utcoffset := some 0 } := by
  have hsuf : (b ++ "+00:00").data =
      b.data ++ '+' :: '0' :: '0' :: ':' :: '0' :: '0' :: [] := rfl
  cases h4 : parse4 b.data with
  | none => simp [fromisoformat, h4] at h
  | some p4 =>
      obtain ⟨y, r1⟩ := p4
      have h4x := parse4_append b.data
        ('+' :: '0' :: '0' :: ':' :: '0' :: '0' :: []) y r1 h4
      cases r1 with
      | nil => simp [fromisoformat, h4] at h
      | cons c1 r2 =>
          by_cases hc1 : c1 = '-'
          · subst hc1
            cases h2 : parse2 r2 with
            | none => simp [fromisoformat, h4, h2] at h
            | some p2 =>
                obtain ⟨mo, r3⟩ := p2
                have h2x := parse2_append r2
                  ('+' :: '0' :: '0' :: ':' :: '0' :: '0' :: []) mo r3 h2
                cases r3 with
                | nil => simp [fromisoformat, h4, h2] at h
                | cons c3 r4 =>
                    by_cases hc3 : c3 = '-'
                    · subst hc3
                      cases h3 : parse2 r4 with
                      | none => simp [fromisoformat, h4, h2, h3] at h
                      | some p3 =>
                          obtain ⟨d, r5⟩ := p3
                          have h3x := parse2_append r4
                            ('+' :: '0' :: '0' :: ':' :: '0' :: '0' :: []) d r5 h3
                          cases r5 with
                          | nil =>
                              exfalso
                              have e4 := parse4_length b.data y ('-' :: r2) h4
                              have e2 := parse2_length r2 mo ('-' :: r4) h2
                              have e3 := parse2_length r4 d [] h3
                              simp only [List.length_cons, List.length_nil]
                                at e4 e2 e3
                              omega
                          | cons sep r6 =>
                              cases hpt : parseTime r6 with
                              | none =>
                                  simp [fromisoformat, h4, h2, h3, hpt] at h
                              | some pt =>
                                  obtain ⟨hh, mm, ss, us, r7⟩ := pt
                                  have hptx := parseTime_append_plus r6
                                    ('0' :: '0' :: ':' :: '0' :: '0' :: [])
                                    hh mm ss us r7 hpt
                                  cases hpo : parseOffset r7 with
                                  | none =>
                                      simp [fromisoformat, h4, h2, h3, hpt,
                                        hpo] at h
                                  | some tz =>
                                      simp only [fromisoformat, h4, h2, h3,
                                        hpt, hpo] at h
                                      have htz : tz = Option.none := by
                                        have hv :=
                                          mkValid_utcoffset y mo d hh mm ss us
                                            tz dt h
                                        rw [hnv] at hv
                                        exact hv.symm
                                      subst htz
                                      have hr7 : r7 = [] :=
                                        parseOffset_none_nil r7 hpo
                                      subst hr7
                                      show fromisoformat (b ++ "+00:00") = _
                                      rw [show fromisoformat (b ++ "+00:00") =
                                        (match parse4 (b ++ "+00:00").data with
                                        | some (y, r1) =>
                                          match r1 with
                                          | '-' :: r2 =>
                                              match parse2 r2 with
                                              | some (mo, r3) =>
                                                  match r3 with
                                                  | '-' :: r4 =>
                                                      match parse2 r4 with
                                                      | some (d, r5) =>
                                                          match r5 with
                                                          | [] => mkValid y mo d 0 0 0 0 Option.none
                                                          | _sep :: r6 =>
                                                              match parseTime r6 with
                                                              | some (hh, mm, ss, us, r7) =>
                                                                  match parseOffset r7 with
                                                                  | some tz => mkValid y mo d hh mm ss us tz
                                                                  | Option.none => Option.none
                                                              | Option.none => Option.none
                                                      | Option.none => Option.none
                                                  | _ => Option.none
                                              | Option.none => Option.none
                                          | _ => Option.none
                                        | Option.none => Option.none) from rfl]
                                      rw [hsuf]
                                      simp only [h4x, List.cons_append,
                                        List.nil_append, h2x, h3x, hptx,
                                        parseOffset_plus00]
                                      exact mkValid_set_tz y mo d hh mm ss us
                                        Option.none (some 0) dt h
                    · simp [fromisoformat, h4, h2, hc3] at h
          · simp [fromisoformat, h4, hc1] at h

/-! ## Z-designator rewriting -/

theorem replaceZchars_append (l1 l2 : List Char) :
    replaceZchars (l1 ++ l2) = replaceZchars l1 ++ replaceZchars l2 := by
  induction l1 with
  | nil => rfl
  | cons c t ih => by_cases hc : c = 'Z' <;> simp [replaceZchars, hc, ih]

theorem replaceZchars_of_noZ (l : List Char) (h : 'Z' ∉ l) :
    replaceZchars l = l := by
  induction l with
  | nil => rfl
  | cons c t ih =>
      have hc : ¬c = 'Z' := fun hh => h (hh ▸ List.mem_cons_self c t)
      simp [replaceZchars, hc, ih (fun hm => h (List.mem_cons_of_mem c hm))]

theorem endsWithZ_append_Z (b : String) : endsWithZ (b ++ "Z") = true := by
  show (match ((b ++ "Z").data).getLast? with
    | some 'Z' => true
    | _ => false) = true
  have hd : (b ++ "Z").data = b.data ++ ['Z'] := rfl
  rw [hd, List.getLast?_concat]
  decide

theorem endsWithZ_append_offset (b : String) :
    endsWithZ (b ++ "+00:00") = false := by
  show (match ((b ++ "+00:00").data).getLast? with
    | some 'Z' => true
    | _ => false) = false
  have hd : (b ++ "+00:00").data =
      (b.data ++ ('+' :: '0' :: '0' :: ':' :: '0' :: [])) ++ ['0'] := by
    show b.data ++ ('+' :: '0' :: '0' :: ':' :: '0' :: '0' :: []) = _
    simp
  rw [hd, List.getLast?_concat]
  decide

/-- C6: for every valid ISO-8601 datetime string ending in Z (a body
that parses as a naive datetime, has a time component, and contains no
other Z), parsing succeeds and yields the same UTC-offset timestamp as
parsing the body with `+00:00` appended in place of the `Z`. -/
theorem c6_parse_iso_z_offset (b : String) (dt : PyDateTime)
    (h : fromisoformat b = some dt) (hnv : dt.utcoffset = Option.none)
    (hlen : 10 < b.data.length) (hz : 'Z' ∉ b.data) :
    _parse_iso (some (b ++ "Z")) = some { dt with utcoffset := some 0 } ∧
    _parse_iso (some (b ++ "+00:00")) = some { dt with utcoffset := some 0 } := by
  have hoff := fromisoformat_append_offset b dt h hnv hlen
  constructor
  · show (if (b ++ "Z") = "" then Option.none
      else fromisoformat (zNormalize (b ++ "Z"))) = _
    have hne : (b ++ "Z") ≠ "" := by
      intro hemp
      have h0 : (b ++ "Z").data.length = 0 := by rw [hemp]; rfl
      have h1 : (b ++ "Z").data.length = b.data.length + 1 := by
        show (b.data ++ ['Z']).length = _
        simp
      omega
    rw [if_neg hne]
    have hzn : zNormalize (b ++ "Z") = b ++ "+00:00" := by
      unfold zNormalize
      rw [endsWithZ_append_Z b, if_pos rfl]
      show String.mk (replaceZchars (b.data ++ ['Z'])) = b ++ "+00:00"
      rw [replaceZchars_append, replaceZchars_of_noZ b.data hz]
      rfl
    rw [hzn, hoff]
  · show (if (b ++ "+00:00") = "" then Option.none
      else fromisoformat (zNormalize (b ++ "+00:00"))) = _
    have hne2 : (b ++ "+00:00") ≠ "" := by
      intro hemp
      have h0 : (b ++ "+00:00").data.length = 0 := by rw [hemp]; rfl
      have h1 : (b ++ "+00:00").data.length = b.data.length + 6 := by
        show (b.data ++ ('+' :: '0' :: '0' :: ':' :: '0' :: '0' :: [])).length = _
        simp
      omega
    rw [if_neg hne2]
    have hzn2 : zNormalize (b ++ "+00:00") = b ++ "+00:00" := by
      unfold zNormalize
      rw [endsWithZ_append_offset b]
      simp
    rw [hzn2, hoff]

/-- C6 witness: "2025-01-02T03:04:05Z" parses to the same UTC-offset
timestamp as "2025-01-02T03:04:05+00:00". -/
theorem c6_parse_iso_z_offset_witness :
    _parse_iso (some ("2025-01-02T03:04:05" ++ "Z")) =
      some ⟨2025, 1, 2, 3, 4, 5, 0, some 0⟩ ∧
    _parse_iso (some ("2025-01-02T03:04:05" ++ "+00:00")) =
      some ⟨2025, 1, 2, 3, 4, 5, 0, some 0⟩ :=
  c6_parse_iso_z_offset "2025-01-02T03:04:05"
    ⟨2025, 1, 2, 3, 4, 5, 0, Option.none⟩
    (by decide) rfl (by decide) (by decide)

/-- C5: whenever the underlying ISO parse of the (Z-normalized) string
fails — in Python, `datetime.fromisoformat` raising `ValueError` —
`_parse_iso` swallows the failure and returns `None`, and the
stock-bars range resolver treats the field exactly as if it were
absent, substituting the default. -/
theorem c5_parse_iso_malformed (v : String) (s e : Option String)
    (now : PyDateTime) (h : fromisoformat (zNormalize v) = Option.none) :
    _parse_iso (some v) = Option.none ∧
    get_stock_bars_range (some v) e now = get_stock_bars_range Option.none e now ∧
    get_stock_bars_range s (some v) now = get_stock_bars_range s Option.none now := by
  have hp : _parse_iso (some v) = Option.none := by
    show (if v = "" then Option.none else fromisoformat (zNormalize v)) =
      Option.none
    by_cases hv : v = ""
    · rw [if_pos hv]
    · rw [if_neg hv, h]
  have hnone : _parse_iso Option.none = Option.none := rfl
  refine ⟨hp, ?_, ?_⟩
  · simp [get_stock_bars_range, hp, hnone]
  · simp [get_stock_bars_range, hp, hnone]

/-- C5 witness: the malformed string "not-a-date" yields `None` and the
resolver falls back to the default range. -/
theorem c5_parse_iso_malformed_witness :
    _parse_iso (some "not-a-date") = Option.none ∧
    get_stock_bars_range (some "not-a-date") Option.none
        ⟨2025, 1, 1, 0, 0, 0, 0, some 0⟩ =
      get_stock_bars_range Option.none Option.none
        ⟨2025, 1, 1, 0, 0, 0, 0, some 0⟩ ∧
    get_stock_bars_range Option.none (some "not-a-date")
        ⟨2025, 1, 1, 0, 0, 0, 0, some 0⟩ =
      get_stock_bars_range Option.none Option.none
        ⟨2025, 1, 1, 0, 0, 0, 0, some 0⟩ :=
  c5_parse_iso_malformed "not-a-date" Option.none Option.none
    ⟨2025, 1, 1, 0, 0, 0, 0, some 0⟩ (by decide)

/-! ## Heap lemmas and the frame property of mover trimming -/

theorem hread_lt (h : Heap) (a : Nat) (o : Obj) (ha : hread h a = some o) :
    a < List.length h := by
  obtain ⟨hlt, -⟩ := List.get?_eq_some.mp ha
  exact hlt

theorem hread_halloc (h : Heap) (o : Obj) (a : Nat) (ha : a < List.length h) :
    hread (halloc h o).1 a = hread h a :=
  List.get?_append ha

theorem hread_halloc_new (h : Heap) (o : Obj) :
    hread (halloc h o).1 (halloc h o).2 = some o :=
  List.get?_concat_length h o

theorem hread_hset_ne (h : Heap) (a b : Nat) (o : Obj) (hne : a ≠ b) :
    hread (hset h a o) b = hread h b :=
  List.get?_set_ne o h hne

theorem hread_hset_self (h : Heap) (a : Nat) (o : Obj)
    (ha : a < List.length h) :
    hread (hset h a o) a = some o :=
  List.get?_set_eq_of_lt o ha

theorem hset_length (h : Heap) (a : Nat) (o : Obj) :
    List.length (hset h a o) = List.length h :=
  List.length_set h a o

theorem halloc_length (h : Heap) (o : Obj) :
    List.length (halloc h o).1 = List.length h + 1 := by
  simp [halloc]

theorem trimNestedHeap_length (keys : List String) (h : Heap) (t nd : Nat)
    (side : String) (limit : Int) :
    List.length h ≤ List.length (trimNestedHeap t nd side limit h keys) := by
  induction keys generalizing h with
  | nil => exact Nat.le_refl _
  | cons key rest ih =>
      cases hnd : hread h nd with
      | none => simp [trimNestedHeap, hnd]
      | some ond =>
          cases ond with
          | odict nes =>
              cases hka : alookup nes key with
              | none =>
                  simp only [trimNestedHeap, hnd, hka]
                  exact ih h
              | some ka =>
                  cases hko : hread h ka with
                  | none =>
                      simp only [trimNestedHeap, hnd, hka, hko]
                      exact ih h
                  | some oka =>
                      cases oka with
                      | olist ys =>
                          simp only [trimNestedHeap, hnd, hka, hko]
                          cases hrt : hread (hset
                              (halloc h (.olist (pySlice ys limit))).1 nd
                              (.odict (aupdate nes key
                                (halloc h (.olist (pySlice ys limit))).2))) t with
                          | none =>
                              simp only [hrt, hset_length, halloc_length]
                              omega
                          | some ot =>
                              cases ot <;>
                                simp only [hrt, hset_length, halloc_length] <;>
                                omega
                      | odict nes2 =>
                          simp only [trimNestedHeap, hnd, hka, hko]
                          exact ih h
                      | oint i =>
                          simp only [trimNestedHeap, hnd, hka, hko]
                          exact ih h
          | olist ys => simp [trimNestedHeap, hnd]
          | oint i => simp [trimNestedHeap, hnd]

theorem trimSideHeap_length (h : Heap) (t : Nat) (side : String) (limit : Int) :
    List.length h ≤ List.length (trimSideHeap h t side limit) := by
  cases ht : hread h t with
  | none => simp [trimSideHeap, ht]
  | some ot =>
      cases ot with
      | odict es =>
          cases hs : alookup es side with
          | none => simp [trimSideHeap, ht, hs]
          | some va =>
              cases hv : hread h va with
              | none => simp [trimSideHeap, ht, hs, hv]
              | some ov =>
                  cases ov with
                  | olist xs =>
                      simp only [trimSideHeap, ht, hs, hv, hset_length,
                        halloc_length]
                      omega
                  | odict nes =>
                      simp only [trimSideHeap, ht, hs, hv]
                      refine Nat.le_trans ?_ (trimNestedHeap_length
                        ["items", "data", "list"]
                        (halloc h (.odict nes)).1 t
                        (halloc h (.odict nes)).2 side limit)
                      rw [halloc_length]
                      omega
                  | oint i => simp [trimSideHeap, ht, hs, hv]
      | olist xs => simp [trimSideHeap, ht]
      | oint i => simp [trimSideHeap, ht]

theorem trimNestedHeap_frame (keys : List String) (h : Heap) (t nd : Nat)
    (side : String) (limit : Int) (a N : Nat) (haN : a < N)
    (hhN : N ≤ List.length h) (htN : N ≤ t) (hndN : N ≤ nd) :
    hread (trimNestedHeap t nd side limit h keys) a = hread h a := by
  induction keys generalizing h with
  | nil => rfl
  | cons key rest ih =>
      have hM : a < List.length h := Nat.lt_of_lt_of_le haN hhN
      cases hnd : hread h nd with
      | none => simp [trimNestedHeap, hnd]
      | some ond =>
          cases ond with
          | odict nes =>
              cases hka : alookup nes key with
              | none =>
                  simp only [trimNestedHeap, hnd, hka]
                  exact ih h hhN
              | some ka =>
                  cases hko : hread h ka with
                  | none =>
                      simp only [trimNestedHeap, hnd, hka, hko]
                      exact ih h hhN
                  | some oka =>
                      cases oka with
                      | olist ys =>
                          simp only [trimNestedHeap, hnd, hka, hko]
                          cases hrt : hread (hset
                              (halloc h (.olist (pySlice ys limit))).1 nd
                              (.odict (aupdate nes key
                                (halloc h (.olist (pySlice ys limit))).2))) t with
                          | none =>
                              rw [hread_hset_ne _ nd a _ (by omega),
                                hread_halloc _ _ a hM]
                          | some ot =>
                              cases ot with
                              | odict tes =>
                                  rw [hread_hset_ne _ t a _ (by omega),
                                    hread_hset_ne _ nd a _ (by omega),
                                    hread_halloc _ _ a hM]
                              | olist ys2 =>
                                  rw [hread_hset_ne _ nd a _ (by omega),
                                    hread_halloc _ _ a hM]
                              | oint i =>
                                  rw [hread_hset_ne _ nd a _ (by omega),
                                    hread_halloc _ _ a hM]
                      | odict nes2 =>
                          simp only [trimNestedHeap, hnd, hka, hko]
                          exact ih h hhN
                      | oint i =>
                          simp only [trimNestedHeap, hnd, hka, hko]
                          exact ih h hhN
          | olist ys => simp [trimNestedHeap, hnd]
          | oint i => simp [trimNestedHeap, hnd]

theorem trimSideHeap_frame (h : Heap) (t : Nat) (side : String) (limit : Int)
    (a N : Nat) (haN : a < N) (hhN : N ≤ List.length h) (htN : N ≤ t) :
    hread (trimSideHeap h t side limit) a = hread h a := by
  have hM : a < List.length h := Nat.lt_of_lt_of_le haN hhN
  cases ht : hread h t with
  | none => simp [trimSideHeap, ht]
  | some ot =>
      cases ot with
      | odict es =>
          cases hs : alookup es side with
          | none => simp [trimSideHeap, ht, hs]
          | some va =>
              cases hv : hread h va with
              | none => simp [trimSideHeap, ht, hs, hv]
              | some ov =>
                  cases ov with
                  | olist xs =>
                      simp only [trimSideHeap, ht, hs, hv]
                      rw [hread_hset_ne _ t a _ (by omega),
                        hread_halloc _ _ a hM]
                  | odict nes =>
                      simp only [trimSideHeap, ht, hs, hv]
                      rw [trimNestedHeap_frame ["items", "data", "list"]
                        (halloc h (.odict nes)).1 t (halloc h (.odict nes)).2
                        side limit a N haN
                        (by rw [halloc_length]; omega) htN
                        (by show N ≤ List.length h; omega)]
                      exact hread_halloc h _ a hM
                  | oint i => simp [trimSideHeap, ht, hs, hv]
      | olist xs => simp [trimSideHeap, ht]
      | oint i => simp [trimSideHeap, ht]

theorem trimNestedHeap_t (keys : List String) (h : Heap) (t nd : Nat)
    (side : String) (limit : Int) (tes : List (String × Nat))
    (ht : hread h t = some (.odict tes)) (htnd : t ≠ nd) :
    ∃ tes2, hread (trimNestedHeap t nd side limit h keys) t =
        some (.odict tes2) ∧
      tes2.map Prod.fst = tes.map Prod.fst ∧
      ∀ k, k ≠ side → alookup tes2 k = alookup tes k := by
  induction keys generalizing h with
  | nil => exact ⟨tes, ht, rfl, fun k _ => rfl⟩
  | cons key rest ih =>
      have htlt : t < List.length h := hread_lt h t _ ht
      cases hnd : hread h nd with
      | none =>
          simp only [trimNestedHeap, hnd]
          exact ⟨tes, ht, rfl, fun k _ => rfl⟩
      | some ond =>
          cases ond with
          | odict nes =>
              cases hka : alookup nes key with
              | none =>
                  simp only [trimNestedHeap, hnd, hka]
                  exact ih h ht
              | some ka =>
                  cases hko : hread h ka with
                  | none =>
                      simp only [trimNestedHeap, hnd, hka, hko]
                      exact ih h ht
                  | some oka =>
                      cases oka with
                      | olist ys =>
                          simp only [trimNestedHeap, hnd, hka, hko]
                          have h2t : hread (hset
                              (halloc h (.olist (pySlice ys limit))).1 nd
                              (.odict (aupdate nes key
                                (halloc h (.olist (pySlice ys limit))).2))) t =
                              some (.odict tes) := by
                            rw [hread_hset_ne _ nd t _ (fun hh => htnd hh.symm),
                              hread_halloc _ _ t htlt]
                            exact ht
                          simp only [h2t]
                          refine ⟨aupdate tes side nd, ?_,
                            aupdate_keys tes side nd,
                            fun k hk => alookup_aupdate_ne tes side k nd hk⟩
                          apply hread_hset_self
                          rw [hset_length, halloc_length]
                          omega
                      | odict nes2 =>
                          simp only [trimNestedHeap, hnd, hka, hko]
                          exact ih h ht
                      | oint i =>
                          simp only [trimNestedHeap, hnd, hka, hko]
                          exact ih h ht
          | olist ys =>
              simp only [trimNestedHeap, hnd]
              exact ⟨tes, ht, rfl, fun k _ => rfl⟩
          | oint i =>
              simp only [trimNestedHeap, hnd]
              exact ⟨tes, ht, rfl, fun k _ => rfl⟩

theorem trimSideHeap_t (h : Heap) (t : Nat) (side : String) (limit : Int)
    (tes : List (String × Nat)) (ht : hread h t = some (.odict tes)) :
    ∃ tes2, hread (trimSideHeap h t side limit) t = some (.odict tes2) ∧
      tes2.map Prod.fst = tes.map Prod.fst ∧
      ∀ k, k ≠ side → alookup tes2 k = alookup tes k := by
  have htlt : t < List.length h := hread_lt h t _ ht
  cases hs : alookup tes side with
  | none =>
      simp only [trimSideHeap, ht, hs]
      exact ⟨tes, rfl, rfl, fun k _ => rfl⟩
  | some va =>
      cases hv : hread h va with
      | none =>
          simp only [trimSideHeap, ht, hs, hv]
          exact ⟨tes, rfl, rfl, fun k _ => rfl⟩
      | some ov =>
          cases ov with
          | olist xs =>
              simp only [trimSideHeap, ht, hs, hv]
              refine ⟨aupdate tes side
                  (halloc h (.olist (pySlice xs limit))).2, ?_,
                aupdate_keys tes side _,
                fun k hk => alookup_aupdate_ne tes side k _ hk⟩
              apply hread_hset_self
              rw [halloc_length]
              omega
          | odict nes =>
              simp only [trimSideHeap, ht, hs, hv]
              have h1t : hread (halloc h (.odict nes)).1 t =
                  some (.odict tes) := by
                rw [hread_halloc _ _ t htlt]
                exact ht
              have htnd : t ≠ (halloc h (.odict nes)).2 := by
                show t ≠ List.length h
                omega
              exact trimNestedHeap_t ["items", "data", "list"] _ t _ side limit
                tes h1t htnd
          | oint i =>
              simp only [trimSideHeap, ht, hs, hv]
              exact ⟨tes, rfl, rfl, fun k _ => rfl⟩

/-- C4: over the object heap, mover trimming never mutates the input:
every object present before the call (the payload mapping, its nested
gainer/loser lists and nested mappings, and everything else) reads back
unchanged afterwards; the returned mapping is a freshly allocated
shallow copy of the payload whose key sequence is preserved and in
which every key other than `gainers`/`losers` still points at the very
same object. -/
theorem c4_limit_mover_frame (h : Heap) (p : Nat) (limit : Int)
    (es : List (String × Nat)) (h2 : Heap) (r : Nat)
    (hp : hread h p = some (.odict es))
    (hrun : limitMoverHeap h p limit = (h2, r)) :
    (∀ a, a < List.length h → hread h2 a = hread h a) ∧
    List.length h ≤ r ∧ r ≠ p ∧
    ∃ es2, hread h2 r = some (.odict es2) ∧
      es2.map Prod.fst = es.map Prod.fst ∧
      ∀ k, k ≠ "gainers" → k ≠ "losers" → alookup es2 k = alookup es k := by
  have hplt : p < List.length h := hread_lt h p _ hp
  simp only [limitMoverHeap, hp] at hrun
  injection hrun with hh2 hr
  subst hh2
  subst hr
  have e2 : (halloc h (Obj.odict es)).2 = List.length h := rfl
  have l1 : List.length (halloc h (Obj.odict es)).1 = List.length h + 1 :=
    halloc_length h _
  have lg : List.length (halloc h (Obj.odict es)).1 ≤
      List.length (trimSideHeap (halloc h (Obj.odict es)).1
        (halloc h (Obj.odict es)).2 "gainers" limit) :=
    trimSideHeap_length _ _ _ _
  refine ⟨?_, ?_, ?_, ?_⟩
  · intro a ha
    rw [trimSideHeap_frame _ _ "losers" limit a (List.length h) ha
        (by omega) (by rw [e2]),
      trimSideHeap_frame _ _ "gainers" limit a (List.length h) ha
        (by omega) (by rw [e2]),
      hread_halloc h _ a ha]
  · rw [e2]
  · rw [e2]
    omega
  · have h1t : hread (halloc h (Obj.odict es)).1
        (halloc h (Obj.odict es)).2 = some (.odict es) :=
      hread_halloc_new h _
    obtain ⟨tes2, ht2, hk2, hl2⟩ :=
      trimSideHeap_t (halloc h (Obj.odict es)).1
        (halloc h (Obj.odict es)).2 "gainers" limit es h1t
    obtain ⟨tes3, ht3, hk3, hl3⟩ :=
      trimSideHeap_t _ (halloc h (Obj.odict es)).2 "losers" limit tes2 ht2
    refine ⟨tes3, ht3, by rw [hk3, hk2], ?_⟩
    intro k hkg hkl
    rw [hl3 k hkl, hl2 k hkg]

/-- C4 witness: on a concrete three-object heap whose payload mapping
has a gainers list of three elements and an unrelated key, trimming
with limit 2 leaves all three original objects unchanged, allocates the
copy at a fresh address, keeps the key sequence, and leaves the
unrelated key pointing at the same object. -/
theorem c4_limit_mover_frame_witness :
    (∀ a, a < List.length ([Obj.odict [("gainers", 1), ("x", 2)],
        Obj.olist [2, 2, 2], Obj.oint 7] : Heap) →
      hread ([Obj.odict [("gainers", 1), ("x", 2)], Obj.olist [2, 2, 2],
        Obj.oint 7, Obj.odict [("gainers", 4), ("x", 2)],
        Obj.olist [2, 2]] : Heap) a =
      hread ([Obj.odict [("gainers", 1), ("x", 2)], Obj.olist [2, 2, 2],
        Obj.oint 7] : Heap) a) ∧
    List.length ([Obj.odict [("gainers", 1), ("x", 2)], Obj.olist [2, 2, 2],
      Obj.oint 7] : Heap) ≤ 3 ∧ (3 : Nat) ≠ 0 ∧
    ∃ es2, hread ([Obj.odict [("gainers", 1), ("x", 2)], Obj.olist [2, 2, 2],
        Obj.oint 7, Obj.odict [("gainers", 4), ("x", 2)],
        Obj.olist [2, 2]] : Heap) 3 = some (.odict es2) ∧
      es2.map Prod.fst =
        ([("gainers", 1), ("x", 2)] : List (String × Nat)).map Prod.fst ∧
      ∀ k, k ≠ "gainers" → k ≠ "losers" →
        alookup es2 k =
          alookup ([("gainers", 1), ("x", 2)] : List (String × Nat)) k :=
  c4_limit_mover_frame
    [Obj.odict [("gainers", 1), ("x", 2)], Obj.olist [2, 2, 2], Obj.oint 7]
    0 2 [("gainers", 1), ("x", 2)]
    [Obj.odict [("gainers", 1), ("x", 2)], Obj.olist [2, 2, 2], Obj.oint 7,
      Obj.odict [("gainers", 4), ("x", 2)], Obj.olist [2, 2]]
    3 rfl rfl
